import Mathlib

/-!
Shallow embedding of `src/population.py` (and the data model of
`src/artifacts.py`) from the lluminate repository, together with proofs
about the population store, the selection engine and the generation
ledger.

Modelling conventions:
* Python floats are modelled as rationals (`ℚ`); the one computation that
  intrinsically needs square roots (L2 normalisation of embedding rows)
  is additionally modelled over `ℝ`.
* The Python `dict` `id_to_artifact` is modelled as an insertion-ordered
  association list with overwrite-on-assignment semantics, matching
  CPython dict behaviour.
* Randomness (`np.random.choice`) and wall-clock timestamps are passed in
  as explicit oracle parameters.
-/

namespace Lluminate

/-- The `Artifact` data model of `artifacts.py` (`Artifact.__init__`):
identity plus optional idea/genome/phenome/prompt, optional embedding and
fitness, a creation time and a metadata mapping. -/
structure Artifact where
  id : String
  idea : Option String := none
  genome : Option String := none
  phenome : Option String := none
  prompt : Option String := none
  embedding : Option (List ℚ) := none
  fitness : Option ℚ := none
  creation_time : ℕ := 0
  metadata : List (String × String) := []
  deriving DecidableEq

/-- CPython dict assignment `d[k] = v`: overwrite in place if the key is
present, otherwise append the new binding at the end. -/
def dictInsert (d : List (String × Artifact)) (k : String) (v : Artifact) :
    List (String × Artifact) :=
  if d.any (fun kv => kv.1 = k) then
    d.map (fun kv => if kv.1 = k then (k, v) else kv)
  else
    d ++ [(k, v)]

/-- CPython dict lookup `d.get(k)`. -/
def dictLookup (d : List (String × Artifact)) (k : String) : Option Artifact :=
  (d.find? (fun kv => kv.1 = k)).map Prod.snd

/-- CPython `del d[k]`. -/
def dictErase (d : List (String × Artifact)) (k : String) :
    List (String × Artifact) :=
  d.filter (fun kv => kv.1 ≠ k)

/-- CPython `k in d`. -/
def dictContains (d : List (String × Artifact)) (k : String) : Bool :=
  d.any (fun kv => kv.1 = k)

/-- `Population.__init__`: the ordered collection `self.artifacts` and the
index `self.id_to_artifact`. -/
structure Population where
  artifacts : List Artifact
  id_to_artifact : List (String × Artifact)
  deriving DecidableEq

/-- A freshly constructed population: both containers empty. -/
def Population.empty : Population := ⟨[], []⟩

/-- `Population.add`: `self.artifacts.append(artifact)` followed by
`self.id_to_artifact[artifact.id] = artifact`. -/
def Population.add (p : Population) (a : Artifact) : Population :=
  { artifacts := p.artifacts ++ [a]
    id_to_artifact := dictInsert p.id_to_artifact a.id a }

/-- `Population.add_all`: `for artifact in artifacts: self.add(artifact)`. -/
def Population.add_all (p : Population) (as : List Artifact) : Population :=
  as.foldl Population.add p

/-- `Population.remove`: guarded by `artifact.id in self.id_to_artifact`;
`list.remove` deletes the first equal element, `del` removes the key. -/
def Population.remove (p : Population) (a : Artifact) : Population :=
  if dictContains p.id_to_artifact a.id then
    { artifacts := p.artifacts.erase a
      id_to_artifact := dictErase p.id_to_artifact a.id }
  else p

/-- `Population.get`. -/
def Population.get (p : Population) (artifact_id : String) : Option Artifact :=
  dictLookup p.id_to_artifact artifact_id

/-- `Population.get_all`: `self.artifacts.copy()` (same list value). -/
def Population.get_all (p : Population) : List Artifact :=
  p.artifacts

/-- Placeholder artifact used only to give list indexing a total type; the
theorems about `get_random` always carry the bound `i < length`, so it is
never actually produced. -/
def defaultArtifact : Artifact := { id := "" }

/-- `Population.get_random`: if `count >= len(self.artifacts)` return
`get_all()`; otherwise `np.random.choice(len, size=count, replace=False)`
picks distinct indices and the chosen artifacts are returned.  The random
draw is an oracle parameter `chosen`; its contract (length `count`,
no duplicates, all below `len`) appears as hypotheses of the theorems. -/
def Population.get_random (p : Population) (count : ℕ) (chosen : List ℕ) :
    List Artifact :=
  if p.artifacts.length ≤ count then p.get_all
  else chosen.map (fun i => p.artifacts.getD i defaultArtifact)

/-- The sort key of `Population.get_best`:
`a.fitness if a.fitness is not None else float("-inf")`. -/
def fitKey (a : Artifact) : WithBot ℚ :=
  match a.fitness with
  | none => ⊥
  | some q => (q : WithBot ℚ)

/-- The descending-by-fitness ordering used by `get_best`. -/
def fitDescRel (a b : Artifact) : Prop :=
  fitKey b ≤ fitKey a

instance : DecidableRel fitDescRel :=
  fun a b => inferInstanceAs (Decidable (fitKey b ≤ fitKey a))

instance : IsTotal Artifact fitDescRel :=
  ⟨fun a b => le_total (fitKey b) (fitKey a)⟩

instance : IsTrans Artifact fitDescRel :=
  ⟨fun _ _ _ h1 h2 => le_trans h2 h1⟩

/-- `sorted(self.artifacts, key=..., reverse=True)`: CPython's sort is
stable, and a stable descending sort is observationally `insertionSort`
with the relation `fitKey b ≤ fitKey a` (earlier elements stay in front
of later elements with an equal key). -/
def fitSortDesc (l : List Artifact) : List Artifact :=
  l.insertionSort fitDescRel

/-- `Population.get_best`: sort by fitness descending (missing fitness as
`-inf`) and take the first `count`. -/
def Population.get_best (p : Population) (count : ℕ) : List Artifact :=
  (fitSortDesc p.artifacts).take count

section Novelty

variable {α : Type} [LinearOrderedField α]

/-- Row dot product, one entry of `torch.mm(norm_emb, norm_emb.t())`.
Faithful on equal-length rows, the only case constructible as a
`torch.Tensor`; on unequal lengths `List.zipWith` truncates, which has
no counterpart in torch (torch.mm raises on dimension mismatch), so no
theorem below evaluates it on unequal-length rows. -/
def dotRow (u v : List α) : α :=
  (List.zipWith (fun x y => x * y) u v).sum

/-- `torch.mm(norm_emb, norm_emb.t())`: the full pairwise matrix of row
dot products. -/
def simMatrix (rows : List (List α)) : List (List α) :=
  rows.map (fun u => rows.map (fun v => dotRow u v))

/-- `distances = 1 - similarity` (cosine distance). -/
def distMatrix (rows : List (List α)) : List (List α) :=
  (simMatrix rows).map (fun r => r.map (fun s => 1 - s))

/-- `torch.finfo(torch.float32).max / 2 = (2^128 - 2^104) / 2`: the large
finite sentinel written onto the diagonal. -/
def sentinel (α : Type) [LinearOrderedField α] : α :=
  (2 ^ 128 - 2 ^ 104) / 2

/-- `for i in range(n): distances[i, i] = max_val`: replace each diagonal
entry by the sentinel. -/
def patchDiag (m : List (List α)) : List (List α) :=
  m.mapIdx (fun i row => row.mapIdx (fun j d => if j = i then sentinel α else d))

/-- One row of `torch.sort(distances, dim=1)` (ascending values). -/
def ascRow (row : List α) : List α :=
  row.insertionSort (fun a b => a ≤ b)

/-- `sorted_dist[:, :k]`: each row sorted ascending, truncated to `k`. -/
def kNearestRows (m : List (List α)) (k : ℕ) : List (List α) :=
  m.map (fun row => (ascRow row).take k)

/-- `.mean(dim=1)` of one row. -/
def meanList (l : List α) : α :=
  l.sum / (l.length : α)

/-- `novelty_scores = k_nearest.mean(dim=1)` computed from the normalized
rows: cosine distances, diagonal patched, rows sorted, first `k` averaged. -/
def noveltyScores (normEmb : List (List α)) (k : ℕ) : List α :=
  (kNearestRows (patchDiag (distMatrix normEmb)) k).map meanList

/-- `torch.argsort(novelty_scores, descending=True).tolist()`: indices of
the scores sorted by score descending (tie order modelled as stable). -/
def argsortDesc (scores : List α) : List ℕ :=
  (((List.range scores.length).zip scores).insertionSort
      (fun p q => q.2 ≤ p.2)).map Prod.fst

end Novelty

/-- `Population.select_by_novelty`, lines 72-105 of `population.py`, over
`ℚ`, taking as input the already L2-normalized embedding matrix (the
value `norm_emb` produced at line 82; the normalization itself divides by
a square root and is modelled exactly over `ℝ` in
`Population.selectByNoveltyFull` below).  The small-population branch is
checked first, before any matrix arithmetic, exactly as in the source.
The result is the pair `(sorted_indices, novelty_scores)`; with
`return_distances=False` the caller receives only the first component. -/
def Population.select_by_novelty (p : Population) (normEmb : List (List ℚ))
    (k_neighbors : ℕ) : List ℕ × List ℚ :=
  if p.artifacts.length ≤ k_neighbors then
    (List.range p.artifacts.length, List.replicate p.artifacts.length 0)
  else
    (argsortDesc (noveltyScores normEmb k_neighbors),
     noveltyScores normEmb k_neighbors)

/-- `torch.nn.functional.normalize(embeddings, dim=1)` with the default
`p=2, eps=1e-12`: divide each row by `max(l2norm(row), 1e-12)`. -/
noncomputable def normalizeRow (v : List ℝ) : List ℝ :=
  v.map (fun x => x / max (Real.sqrt (dotRow v v)) (1 / 10 ^ 12))

/-- `Population.select_by_novelty` over `ℝ`, including the L2 row
normalization of line 82 (which needs real square roots). -/
noncomputable def Population.selectByNoveltyFull (p : Population)
    (embeddings : List (List ℝ)) (k_neighbors : ℕ) : List ℕ × List ℝ :=
  if p.artifacts.length ≤ k_neighbors then
    (List.range p.artifacts.length, List.replicate p.artifacts.length 0)
  else
    (argsortDesc (noveltyScores (embeddings.map normalizeRow) k_neighbors),
     noveltyScores (embeddings.map normalizeRow) k_neighbors)

/-- One entry of the JSONL generation ledger written by `Population.save`:
generation number, timestamp (an opaque oracle value), the member id list
and the redundant count. -/
structure LedgerEntry where
  generation : ℕ
  timestamp : ℕ
  genome_ids : List String
  count : ℕ
  deriving DecidableEq

/-- The dictionary `population_data` built by `Population.save`:
`genome_ids = [g.id for g in self.artifacts]`, `count = len(self.artifacts)`. -/
def Population.saveEntry (p : Population) (generation timestamp : ℕ) :
    LedgerEntry :=
  { generation := generation
    timestamp := timestamp
    genome_ids := p.artifacts.map (fun g => g.id)
    count := p.artifacts.length }

/-- Appending one line to `population_data.jsonl` (the file opened with
mode `"a"`). -/
def appendEntry (ledger : List LedgerEntry) (p : Population)
    (generation timestamp : ℕ) : List LedgerEntry :=
  ledger ++ [p.saveEntry generation timestamp]

/-- A sequence of `Population.save` calls, each appending to the ledger. -/
def runSaves (ledger : List LedgerEntry) :
    List (Population × ℕ × ℕ) → List LedgerEntry
  | [] => ledger
  | c :: cs => runSaves (appendEntry ledger c.1 c.2.1 c.2.2) cs

/-- A mutating operation on the population store. -/
inductive StoreOp where
  | add (a : Artifact)
  | add_all (as : List Artifact)
  | remove (a : Artifact)
  deriving DecidableEq

/-- Execute one store operation. -/
def applyOp (p : Population) : StoreOp → Population
  | .add a => p.add a
  | .add_all as => p.add_all as
  | .remove a => p.remove a

/-- The precondition under which an operation respects id uniqueness:
an `add` only inserts a fresh id, an `add_all` batch keeps all ids
distinct, and a `remove` targets a record that is actually present (or
whose id is entirely absent, making it a no-op). -/
def legalOp (p : Population) : StoreOp → Prop
  | .add a => a.id ∉ p.artifacts.map (fun x => x.id)
  | .add_all as => ((p.artifacts ++ as).map (fun x => x.id)).Nodup
  | .remove a => a ∈ p.artifacts ∨ a.id ∉ p.artifacts.map (fun x => x.id)

instance (p : Population) : (op : StoreOp) → Decidable (legalOp p op)
  | .add _ => inferInstanceAs (Decidable (_ ∉ _))
  | .add_all _ => inferInstanceAs (Decidable (List.Nodup _))
  | .remove _ => inferInstanceAs (Decidable (_ ∨ _))

/-- Execute a sequence of store operations. -/
def applyOps (p : Population) : List StoreOp → Population
  | [] => p
  | op :: ops => applyOps (applyOp p op) ops

/-- Every operation of the sequence is legal in the state it runs in. -/
def legalOps (p : Population) : List StoreOp → Prop
  | [] => True
  | op :: ops => legalOp p op ∧ legalOps (applyOp p op) ops

def decidableLegalOps (p : Population) :
    (ops : List StoreOp) → Decidable (legalOps p ops)
  | [] => .isTrue trivial
  | op :: ops =>
    haveI := decidableLegalOps (applyOp p op) ops
    inferInstanceAs (Decidable (_ ∧ _))

instance (p : Population) (ops : List StoreOp) : Decidable (legalOps p ops) :=
  decidableLegalOps p ops

/-- Representation invariant of the store: the index is exactly the
ordered collection keyed by id, and ids are unique. -/
def Inv (p : Population) : Prop :=
  p.id_to_artifact = p.artifacts.map (fun a => (a.id, a)) ∧
  (p.artifacts.map (fun a => a.id)).Nodup

instance (p : Population) : Decidable (Inv p) :=
  inferInstanceAs (Decidable (_ ∧ _))

/-- The consistency invariant as the specification states it: ids are
unique, every record of the ordered collection has exactly one index
entry, and every index entry is keyed by its record's id and corresponds
to exactly one record of the ordered collection. -/
def StoreConsistent (p : Population) : Prop :=
  (p.artifacts.map (fun a => a.id)).Nodup ∧
  (∀ a ∈ p.artifacts,
    (p.id_to_artifact.filter (fun kv => kv = (a.id, a))).length = 1) ∧
  (∀ kv ∈ p.id_to_artifact, kv.1 = kv.2.id ∧
    (p.artifacts.filter (fun x => x = kv.2)).length = 1)

instance (p : Population) : Decidable (StoreConsistent p) :=
  inferInstanceAs (Decidable (_ ∧ _))

/-! Concrete example data used by counterexamples and witnesses. -/

/-- Two distinct artifacts sharing one id. -/
def artA : Artifact := { id := "dup", genome := some "first" }

/-- Second artifact with the same id as `artA`. -/
def artB : Artifact := { id := "dup", genome := some "second" }

def art1 : Artifact := { id := "a1", fitness := some (2/10) }

def art2 : Artifact := { id := "a2" }

def art3 : Artifact := { id := "a3", fitness := some (9/10) }

def art4 : Artifact := { id := "a4", fitness := some (5/10) }

def art5 : Artifact := { id := "a5", fitness := some (1/10) }

/-- The five-member population of the spec's `get_best` scenario, with
fitness values `[0.2, None, 0.9, 0.5, 0.1]` in insertion order. -/
def pop5 : Population := Population.empty.add_all [art1, art2, art3, art4, art5]

/-- A three-member population for the novelty examples. -/
def pop3 : Population := Population.empty.add_all [art1, art2, art3]

/-! Helper lemmas about the dictionary model. -/

theorem dictInsert_contains_eq (d : List (String × Artifact)) (k : String)
    (v : Artifact) (h : d.any (fun kv => kv.1 = k) = true) :
    dictInsert d k v = d.map (fun kv => if kv.1 = k then (k, v) else kv) := by
  unfold dictInsert
  rw [if_pos h]

theorem dictLookup_overwrite (d : List (String × Artifact)) (k : String)
    (v : Artifact) (h : d.any (fun kv => kv.1 = k) = true) :
    dictLookup (d.map (fun kv => if kv.1 = k then (k, v) else kv)) k = some v := by
  induction d with
  | nil => simp at h
  | cons kv d ih =>
    by_cases hk : kv.1 = k
    · simp [dictLookup, hk]
    · have h' : d.any (fun kv => kv.1 = k) = true := by
        simpa [hk] using h
      simpa [dictLookup, hk] using ih h'

theorem map_overwrite_keys (d : List (String × Artifact)) (k : String)
    (v : Artifact) :
    (d.map (fun kv => if kv.1 = k then (k, v) else kv)).map Prod.fst =
      d.map Prod.fst := by
  induction d with
  | nil => rfl
  | cons kv d ih =>
    by_cases hk : kv.1 = k
    · simp [hk, ih]
    · simp [hk, ih]

/-- C1 (counterexample): on a repeated id, `add` raises nothing and does
not leave the store unchanged: both the ordered collection and the id
index are modified by the second `add`. -/
theorem add_duplicate_id_modifies_store :
    ((Population.empty.add artA).add artB).artifacts ≠
      (Population.empty.add artA).artifacts ∧
    ((Population.empty.add artA).add artB).artifacts = [artA, artB] ∧
    ((Population.empty.add artA).add artB).id_to_artifact = [("dup", artB)] := by
  decide

/-- C1 (amended): for every store and every artifact whose id already
exists in the index, `add` does not fail: it appends the record to the
ordered collection and overwrites the index entry for that id with the
new record, leaving the index key list unchanged. -/
theorem add_on_duplicate_appends_and_overwrites (p : Population) (a : Artifact)
    (h : dictContains p.id_to_artifact a.id = true) :
    (p.add a).artifacts = p.artifacts ++ [a] ∧
    dictLookup (p.add a).id_to_artifact a.id = some a ∧
    (p.add a).id_to_artifact.map Prod.fst = p.id_to_artifact.map Prod.fst := by
  have h' : p.id_to_artifact.any (fun kv => kv.1 = a.id) = true := h
  refine ⟨rfl, ?_, ?_⟩
  · rw [show (p.add a).id_to_artifact = dictInsert p.id_to_artifact a.id a from rfl,
      dictInsert_contains_eq _ _ _ h']
    exact dictLookup_overwrite _ _ _ h'
  · rw [show (p.add a).id_to_artifact = dictInsert p.id_to_artifact a.id a from rfl,
      dictInsert_contains_eq _ _ _ h']
    exact map_overwrite_keys _ _ _

theorem add_on_duplicate_appends_and_overwrites_witness :
    dictContains (Population.empty.add artA).id_to_artifact artB.id = true ∧
    (((Population.empty.add artA).add artB).artifacts =
      (Population.empty.add artA).artifacts ++ [artB] ∧
    dictLookup ((Population.empty.add artA).add artB).id_to_artifact artB.id =
      some artB ∧
    ((Population.empty.add artA).add artB).id_to_artifact.map Prod.fst =
      (Population.empty.add artA).id_to_artifact.map Prod.fst) :=
  ⟨by decide,
   add_on_duplicate_appends_and_overwrites (Population.empty.add artA) artB
     (by decide)⟩

/-- C3: when the population size is at most `k_neighbors`,
`select_by_novelty` returns the identity ordering `[0..n)` together with
a zero score for every member, without failing. -/
theorem novelty_small_population_fallback (p : Population)
    (normEmb : List (List ℚ)) (k : ℕ) (h : p.artifacts.length ≤ k) :
    p.select_by_novelty normEmb k =
      (List.range p.artifacts.length, List.replicate p.artifacts.length 0) := by
  unfold Population.select_by_novelty
  rw [if_pos h]

theorem novelty_small_population_fallback_witness :
    pop3.artifacts.length ≤ 5 ∧
    pop3.select_by_novelty [[1, 0]] 5 =
      (List.range pop3.artifacts.length, List.replicate pop3.artifacts.length 0) :=
  ⟨by decide, novelty_small_population_fallback pop3 [[1, 0]] 5 (by decide)⟩

/-! Helper lemmas about the ledger and the novelty pipeline. -/

theorem runSaves_eq_append (led : List LedgerEntry)
    (calls : List (Population × ℕ × ℕ)) :
    runSaves led calls = led ++ calls.map (fun c => c.1.saveEntry c.2.1 c.2.2) := by
  induction calls generalizing led with
  | nil => simp [runSaves]
  | cons c cs ih => simp [runSaves, appendEntry, ih]

/-- C8: after `N` save calls the ledger holds exactly `N` entries, in call
order; each entry's id list is the store's member id list in store order,
and each entry's `count` equals the length of its id list. -/
theorem save_appends_entries_in_order (calls : List (Population × ℕ × ℕ)) :
    runSaves [] calls = calls.map (fun c => c.1.saveEntry c.2.1 c.2.2) ∧
    (runSaves [] calls).length = calls.length ∧
    (runSaves [] calls).map (fun e => e.genome_ids) =
      calls.map (fun c => c.1.artifacts.map (fun g => g.id)) ∧
    (runSaves [] calls).map (fun e => e.count) =
      (runSaves [] calls).map (fun e => e.genome_ids.length) := by
  have h := runSaves_eq_append [] calls
  simp only [List.nil_append] at h
  refine ⟨h, ?_, ?_, ?_⟩
  · rw [h, List.length_map]
  · rw [h, List.map_map]
    rfl
  · rw [h, List.map_map, List.map_map]
    apply List.map_congr_left
    intro c _
    simp [Population.saveEntry]

theorem noveltyScores_length {α : Type} [LinearOrderedField α]
    (rows : List (List α)) (k : ℕ) :
    (noveltyScores rows k).length = rows.length := by
  simp [noveltyScores, kNearestRows, patchDiag, distMatrix, simMatrix]

theorem argsortDesc_perm_range {α : Type} [LinearOrderedField α]
    (scores : List α) :
    (argsortDesc scores).Perm (List.range scores.length) := by
  unfold argsortDesc
  have h1 := (List.perm_insertionSort (fun p q : ℕ × α => q.2 ≤ p.2)
    ((List.range scores.length).zip scores)).map Prod.fst
  rwa [List.map_fst_zip _ _ (by rw [List.length_range])] at h1

/-- C10: the index list returned by `select_by_novelty` is a permutation
of `[0..n)` for a population of size `n`, in both the small-population
branch and the novelty-ranking branch. -/
theorem novelty_indices_permutation (p : Population) (normEmb : List (List ℚ))
    (k : ℕ) (h : normEmb.length = p.artifacts.length) :
    (p.select_by_novelty normEmb k).1.Perm (List.range p.artifacts.length) := by
  unfold Population.select_by_novelty
  by_cases hle : p.artifacts.length ≤ k
  · rw [if_pos hle]
  · rw [if_neg hle]
    have hp := argsortDesc_perm_range (noveltyScores normEmb k)
    rwa [noveltyScores_length, h] at hp

theorem novelty_indices_permutation_witness :
    ([[1, 0], [0, 1], [3/5, 4/5]] : List (List ℚ)).length = pop3.artifacts.length ∧
    (pop3.select_by_novelty [[1, 0], [0, 1], [3/5, 4/5]] 1).1.Perm
      (List.range pop3.artifacts.length) :=
  ⟨by decide,
   novelty_indices_permutation pop3 [[1, 0], [0, 1], [3/5, 4/5]] 1 (by decide)⟩

/-! Helper lemmas about the stable descending fitness sort. -/

theorem orderedInsert_filter_fitKey (a : Artifact) (l : List Artifact)
    (q : WithBot ℚ) :
    (l.orderedInsert fitDescRel a).filter (fun x => fitKey x = q) =
      if fitKey a = q then a :: l.filter (fun x => fitKey x = q)
      else l.filter (fun x => fitKey x = q) := by
  induction l with
  | nil =>
    by_cases hq : fitKey a = q
    · simp [List.orderedInsert, hq]
    · simp [List.orderedInsert, hq]
  | cons b l ih =>
    by_cases hr : fitDescRel a b
    · rw [List.orderedInsert_of_le _ _ hr]
      by_cases hq : fitKey a = q
      · simp [List.filter_cons, hq]
      · simp [List.filter_cons, hq]
    · have hlt : fitKey a < fitKey b := lt_of_not_le hr
      rw [show (b :: l).orderedInsert fitDescRel a =
          b :: l.orderedInsert fitDescRel a by
        simp [List.orderedInsert, hr]]
      by_cases hq : fitKey a = q
      · have hbq : ¬ fitKey b = q := by
          rw [← hq]
          exact ne_of_gt hlt
        simp [List.filter_cons, hbq, hq, ih]
      · by_cases hbq : fitKey b = q
        · simp [List.filter_cons, hbq, hq, ih]
        · simp [List.filter_cons, hbq, hq, ih]

theorem fitSortDesc_filter_fitKey (l : List Artifact) (q : WithBot ℚ) :
    (fitSortDesc l).filter (fun x => fitKey x = q) =
      l.filter (fun x => fitKey x = q) := by
  induction l with
  | nil => rfl
  | cons a l ih =>
    show ((l.insertionSort fitDescRel).orderedInsert fitDescRel a).filter _ = _
    rw [orderedInsert_filter_fitKey]
    by_cases hq : fitKey a = q
    · rw [if_pos hq]
      show _ = List.filter _ (a :: l)
      rw [List.filter_cons_of_pos (by simpa using hq)]
      rw [show (l.insertionSort fitDescRel).filter (fun x => decide (fitKey x = q)) =
        (fitSortDesc l).filter (fun x => decide (fitKey x = q)) from rfl, ih]
    · rw [if_neg hq]
      show _ = List.filter _ (a :: l)
      rw [List.filter_cons_of_neg (by simpa using hq)]
      exact ih

/-- C5: `get_best` returns `min count n` records, sorted by fitness
descending with unset fitness as `-inf`; every returned record has
fitness at least that of every record left behind; the underlying sort
is stable (records of equal fitness keep their insertion order, stated
as preservation of each fitness class by the sort); and on the spec's
five-member scenario `get_best 2` returns the fitness-0.9 record then
the fitness-0.5 record. -/
theorem get_best_top_count_stable :
    (∀ (p : Population) (count : ℕ),
      (p.get_best count).length = min count p.artifacts.length ∧
      List.Sorted fitDescRel (p.get_best count) ∧
      (∀ a ∈ p.get_best count, ∀ b ∈ (fitSortDesc p.artifacts).drop count,
        fitKey b ≤ fitKey a) ∧
      (∀ q : WithBot ℚ,
        (fitSortDesc p.artifacts).filter (fun x => fitKey x = q) =
          p.artifacts.filter (fun x => fitKey x = q))) ∧
    pop5.get_best 2 = [art3, art4] := by
  constructor
  · intro p count
    have hsorted : List.Sorted fitDescRel (fitSortDesc p.artifacts) :=
      List.sorted_insertionSort fitDescRel p.artifacts
    refine ⟨?_, ?_, ?_, fun q => fitSortDesc_filter_fitKey p.artifacts q⟩
    · show ((fitSortDesc p.artifacts).take count).length = _
      rw [List.length_take]
      rw [show (fitSortDesc p.artifacts).length = p.artifacts.length from
        List.length_insertionSort fitDescRel p.artifacts]
    · exact List.Pairwise.sublist (List.take_sublist count _) hsorted
    · intro a ha b hb
      have hsplit := List.take_append_drop count (fitSortDesc p.artifacts)
      rw [← hsplit] at hsorted
      exact (List.pairwise_append.mp hsorted).2.2 a ha b hb
  · show (fitSortDesc pop5.artifacts).take 2 = [art3, art4]
    norm_num [fitSortDesc, pop5, Population.empty, Population.add_all,
      Population.add, List.foldl, List.insertionSort, List.orderedInsert,
      fitDescRel, fitKey, art1, art2, art3, art4, art5]

theorem get_best_top_count_stable_witness :
    (pop5.get_best 2).length = min 2 pop5.artifacts.length :=
  (get_best_top_count_stable.1 pop5 2).1

/-- C7: `get_random` returns exactly `min count n` distinct records: all
`n` members exactly once when `count ≥ n`, and `count` distinct members
(at distinct in-range oracle indices) when `count < n`. -/
theorem get_random_returns_min_count_distinct (p : Population) (count : ℕ)
    (chosen : List ℕ) (hart : p.artifacts.Nodup)
    (hc : count < p.artifacts.length →
      chosen.length = count ∧ chosen.Nodup ∧
        ∀ i ∈ chosen, i < p.artifacts.length) :
    (p.get_random count chosen).length = min count p.artifacts.length ∧
    (p.get_random count chosen).Nodup ∧
    (p.artifacts.length ≤ count → p.get_random count chosen = p.artifacts) ∧
    (∀ a ∈ p.get_random count chosen, a ∈ p.artifacts) := by
  unfold Population.get_random
  by_cases hle : p.artifacts.length ≤ count
  · rw [if_pos hle]
    exact ⟨(Nat.min_eq_right hle).symm, hart, fun _ => rfl, fun a ha => ha⟩
  · obtain ⟨hlen, hnd, hbd⟩ := hc (not_le.mp hle)
    rw [if_neg hle]
    refine ⟨?_, ?_, fun h => absurd h hle, ?_⟩
    · rw [List.length_map, hlen, Nat.min_eq_left (le_of_lt (not_le.mp hle))]
    · refine List.Nodup.map_on ?_ hnd
      intro i hi j hj hij
      have hi' := hbd i hi
      have hj' := hbd j hj
      rw [List.getD_eq_getElem?_getD, List.getElem?_eq_getElem hi',
        List.getD_eq_getElem?_getD, List.getElem?_eq_getElem hj'] at hij
      exact (hart.getElem_inj_iff).mp hij
    · intro a ha
      simp only [List.mem_map] at ha
      obtain ⟨i, hi, rfl⟩ := ha
      rw [List.getD_eq_getElem?_getD, List.getElem?_eq_getElem (hbd i hi)]
      exact List.getElem_mem _

theorem get_random_returns_min_count_distinct_witness :
    pop5.artifacts.Nodup ∧
    (2 < pop5.artifacts.length →
      ([4, 1] : List ℕ).length = 2 ∧ ([4, 1] : List ℕ).Nodup ∧
        ∀ i ∈ ([4, 1] : List ℕ), i < pop5.artifacts.length) ∧
    ((pop5.get_random 2 [4, 1]).length = min 2 pop5.artifacts.length ∧
    (pop5.get_random 2 [4, 1]).Nodup ∧
    (pop5.artifacts.length ≤ 2 → pop5.get_random 2 [4, 1] = pop5.artifacts) ∧
    (∀ a ∈ pop5.get_random 2 [4, 1], a ∈ pop5.artifacts)) :=
  ⟨by decide, by decide,
   get_random_returns_min_count_distinct pop5 2 [4, 1] (by decide) (by decide)⟩

/-! Helper lemmas for the store invariant. -/

theorem not_contains_of_fresh (p : Population) (k : String) (hInv : Inv p)
    (h : k ∉ p.artifacts.map (fun x => x.id)) :
    p.id_to_artifact.any (fun kv => kv.1 = k) = false := by
  rw [hInv.1, List.any_eq_false]
  intro kv hkv
  obtain ⟨x, hx, rfl⟩ := List.mem_map.mp hkv
  simp only [decide_eq_true_eq]
  intro hk
  exact h (List.mem_map.mpr ⟨x, hx, hk⟩)

theorem inv_add (p : Population) (a : Artifact) (hInv : Inv p)
    (h : a.id ∉ p.artifacts.map (fun x => x.id)) : Inv (p.add a) := by
  constructor
  · show dictInsert p.id_to_artifact a.id a =
      (p.artifacts ++ [a]).map (fun x => (x.id, x))
    unfold dictInsert
    rw [if_neg (by simp [not_contains_of_fresh p a.id hInv h])]
    rw [hInv.1, List.map_append]
    rfl
  · show ((p.artifacts ++ [a]).map (fun x => x.id)).Nodup
    rw [List.map_append]
    simp only [List.nodup_append, List.map_cons, List.map_nil]
    refine ⟨hInv.2, List.nodup_singleton _, ?_⟩
    intro x hx hmem
    simp only [List.mem_cons, List.not_mem_nil, or_false] at hmem
    exact h (hmem ▸ hx)

theorem inv_add_all (p : Population) (as : List Artifact) (hInv : Inv p)
    (h : ((p.artifacts ++ as).map (fun x => x.id)).Nodup) :
    Inv (p.add_all as) := by
  induction as generalizing p with
  | nil => exact hInv
  | cons a as ih =>
    show Inv ((p.add a).add_all as)
    have hfresh : a.id ∉ p.artifacts.map (fun x => x.id) := by
      rw [List.map_append] at h
      have hdisj := (List.nodup_append.mp h).2.2
      intro hmem
      exact hdisj hmem (by simp)
    refine ih (p.add a) (inv_add p a hInv hfresh) ?_
    rw [show (p.add a).artifacts = p.artifacts ++ [a] from rfl,
      List.append_assoc]
    simpa using h

theorem filter_ne_id_eq_erase (l : List Artifact) (a : Artifact)
    (hnd : (l.map (fun x => x.id)).Nodup) (ha : a ∈ l) :
    l.filter (fun x => x.id ≠ a.id) = l.erase a := by
  induction l with
  | nil => cases ha
  | cons b l ih =>
    rw [List.map_cons] at hnd
    by_cases hb : b = a
    · subst hb
      rw [List.erase_cons_head]
      rw [List.filter_cons_of_neg (by simp)]
      rw [List.filter_eq_self]
      intro x hx
      have : x.id ∈ l.map (fun y => y.id) := List.mem_map.mpr ⟨x, hx, rfl⟩
      simp only [decide_eq_true_eq, ne_eq]
      intro hxb
      exact (List.nodup_cons.mp hnd).1 (hxb ▸ this)
    · have ha' : a ∈ l := by
        cases List.mem_cons.mp ha with
        | inl hh => exact absurd hh.symm hb
        | inr hh => exact hh
      have hbne : b.id ≠ a.id := by
        intro he
        have : a.id ∈ l.map (fun y => y.id) := List.mem_map.mpr ⟨a, ha', rfl⟩
        exact (List.nodup_cons.mp hnd).1 (he ▸ this)
      rw [List.erase_cons_tail (by simpa using hb)]
      rw [List.filter_cons_of_pos (by simpa using hbne)]
      rw [ih (List.nodup_cons.mp hnd).2 ha']

theorem inv_remove (p : Population) (a : Artifact) (hInv : Inv p)
    (hleg : a ∈ p.artifacts ∨ a.id ∉ p.artifacts.map (fun x => x.id)) :
    Inv (p.remove a) := by
  unfold Population.remove
  by_cases hc : dictContains p.id_to_artifact a.id = true
  · have ha : a ∈ p.artifacts := by
      cases hleg with
      | inl h => exact h
      | inr h =>
        exact absurd hc (by simp [dictContains, not_contains_of_fresh p a.id hInv h])
    rw [if_pos hc]
    constructor
    · show dictErase p.id_to_artifact a.id =
        (p.artifacts.erase a).map (fun x => (x.id, x))
      unfold dictErase
      rw [hInv.1, List.filter_map,
        ← filter_ne_id_eq_erase p.artifacts a hInv.2 ha]
      rfl
    · show ((p.artifacts.erase a).map (fun x => x.id)).Nodup
      exact List.Nodup.sublist (List.Sublist.map _ (List.erase_sublist a p.artifacts))
        hInv.2
  · rw [if_neg hc]
    exact hInv

theorem inv_applyOp (p : Population) (op : StoreOp) (hInv : Inv p)
    (hleg : legalOp p op) : Inv (applyOp p op) := by
  cases op with
  | add a => exact inv_add p a hInv hleg
  | add_all as => exact inv_add_all p as hInv (by simpa [legalOp] using hleg)
  | remove a => exact inv_remove p a hInv hleg

theorem inv_applyOps (p : Population) (ops : List StoreOp) (hInv : Inv p)
    (hleg : legalOps p ops) : Inv (applyOps p ops) := by
  induction ops generalizing p with
  | nil => exact hInv
  | cons op ops ih =>
    exact ih (applyOp p op) (inv_applyOp p op hInv hleg.1) hleg.2

theorem length_filter_eq_one {β : Type} [DecidableEq β] (l : List β) (b : β)
    (hnd : l.Nodup) (hb : b ∈ l) :
    (l.filter (fun x => x = b)).length = 1 := by
  induction l with
  | nil => cases hb
  | cons c l ih =>
    by_cases hc : c = b
    · subst hc
      rw [List.filter_cons_of_pos (by simp)]
      have hnil : l.filter (fun x => x = c) = [] := by
        rw [List.filter_eq_nil_iff]
        intro x hx
        simp only [decide_eq_true_eq]
        intro he
        exact (List.nodup_cons.mp hnd).1 (he ▸ hx)
      rw [hnil]
      rfl
    · have hb' : b ∈ l := by
        cases List.mem_cons.mp hb with
        | inl hh => exact absurd hh.symm hc
        | inr hh => exact hh
      rw [List.filter_cons_of_neg (by simp [hc])]
      exact ih (List.nodup_cons.mp hnd).2 hb'

theorem length_filter_pair_eq_one (l : List Artifact) (a : Artifact)
    (hnd : l.Nodup) (ha : a ∈ l) :
    ((l.map (fun x => (x.id, x))).filter
      (fun kv => kv = (a.id, a))).length = 1 := by
  rw [List.filter_map, List.length_map]
  rw [List.filter_congr (fun x hx => ?_)]
  · exact length_filter_eq_one l a hnd ha
  · show decide ((x.id, x) = (a.id, a)) = decide (x = a)
    apply decide_eq_decide.mpr
    constructor
    · intro h
      exact congrArg Prod.snd h
    · intro h
      rw [h]

theorem storeConsistent_of_inv (p : Population) (hInv : Inv p) :
    StoreConsistent p := by
  have hart : p.artifacts.Nodup := List.Nodup.of_map _ hInv.2
  refine ⟨hInv.2, ?_, ?_⟩
  · intro a ha
    rw [hInv.1]
    exact length_filter_pair_eq_one p.artifacts a hart ha
  · intro kv hkv
    rw [hInv.1] at hkv
    obtain ⟨x, hx, rfl⟩ := List.mem_map.mp hkv
    exact ⟨rfl, length_filter_eq_one p.artifacts x hart hx⟩

/-- C9 (counterexample): the sequence `add artA; add artB` with `artA ≠
artB` sharing one id leaves the store inconsistent: the ordered
collection holds two records while the index holds one entry, so the
claimed invariant is not preserved by every operation sequence. -/
theorem duplicate_add_breaks_consistency :
    ¬ StoreConsistent (applyOps Population.empty
      [StoreOp.add artA, StoreOp.add artB]) := by
  decide

/-- C9 (amended): every sequence of `add`, `add_all` and `remove`
operations in which each insertion uses a fresh id, and each removal
targets a record actually present (or with an entirely absent id),
preserves the consistency between the ordered collection and the id
index: ids stay unique, every record has exactly one index entry, and
every index entry corresponds to exactly one record. -/
theorem legal_ops_preserve_consistency (p : Population) (ops : List StoreOp)
    (hInv : Inv p) (hleg : legalOps p ops) :
    Inv (applyOps p ops) ∧ StoreConsistent (applyOps p ops) := by
  have h := inv_applyOps p ops hInv hleg
  exact ⟨h, storeConsistent_of_inv _ h⟩

theorem legal_ops_preserve_consistency_witness :
    Inv Population.empty ∧
    legalOps Population.empty
      [StoreOp.add artA, StoreOp.remove artA, StoreOp.add artB] ∧
    (Inv (applyOps Population.empty
      [StoreOp.add artA, StoreOp.remove artA, StoreOp.add artB]) ∧
    StoreConsistent (applyOps Population.empty
      [StoreOp.add artA, StoreOp.remove artA, StoreOp.add artB])) :=
  ⟨by decide, by decide,
   legal_ops_preserve_consistency Population.empty
     [StoreOp.add artA, StoreOp.remove artA, StoreOp.add artB]
     (by decide) (by decide)⟩

/-! Helper lemmas for the novelty self-exclusion theorem: a list-level
Cauchy-Schwarz inequality bounding cosine distances, and the effect of
the diagonal sentinel on the per-row ascending sort. -/

theorem dotRow_self_nonneg (u : List ℚ) : 0 ≤ dotRow u u := by
  induction u with
  | nil => simp [dotRow]
  | cons a u ih =>
    have h : dotRow (a :: u) (a :: u) = a * a + dotRow u u := by
      simp [dotRow]
    rw [h]
    nlinarith [sq_nonneg a]

theorem sq_le_mul_aux (a b A B D : ℚ) (h : D ^ 2 ≤ A * B) (hA : 0 ≤ A)
    (hB : 0 ≤ B) : (a * b + D) ^ 2 ≤ (a * a + A) * (b * b + B) := by
  rcases hB.eq_or_lt with hB0 | hB0
  · have hD : D = 0 := by
      have hD2 : D ^ 2 = 0 := le_antisymm (by nlinarith) (sq_nonneg D)
      exact pow_eq_zero_iff (by norm_num) |>.mp hD2
    subst hD
    rw [← hB0]
    nlinarith [mul_nonneg hA (sq_nonneg b)]
  · have hcert : B * (a ^ 2 * B + A * b ^ 2 - 2 * a * b * D) =
        (a * B - b * D) ^ 2 + b ^ 2 * (A * B - D ^ 2) := by ring
    have h4 : 0 ≤ (a * B - b * D) ^ 2 + b ^ 2 * (A * B - D ^ 2) :=
      add_nonneg (sq_nonneg _) (mul_nonneg (sq_nonneg b) (by linarith))
    have hS : 0 ≤ a ^ 2 * B + A * b ^ 2 - 2 * a * b * D := by
      have h5 := hcert ▸ h4
      exact (mul_nonneg_iff_of_pos_left hB0).mp h5
    nlinarith [hS, h]

theorem dotRow_sq_le (u v : List ℚ) :
    (dotRow u v) ^ 2 ≤ dotRow u u * dotRow v v := by
  induction u generalizing v with
  | nil => simp [dotRow]
  | cons a u ih =>
    cases v with
    | nil => simp [dotRow]
    | cons b v =>
      have h1 : dotRow (a :: u) (b :: v) = a * b + dotRow u v := by simp [dotRow]
      have h2 : dotRow (a :: u) (a :: u) = a * a + dotRow u u := by simp [dotRow]
      have h3 : dotRow (b :: v) (b :: v) = b * b + dotRow v v := by simp [dotRow]
      rw [h1, h2, h3]
      exact sq_le_mul_aux a b (dotRow u u) (dotRow v v) (dotRow u v) (ih v)
        (dotRow_self_nonneg u) (dotRow_self_nonneg v)

theorem dist_entry_le (u v : List ℚ) (hu : dotRow u u ≤ 1)
    (hv : dotRow v v ≤ 1) : 1 - dotRow u v ≤ 2 := by
  have hsq := dotRow_sq_le u v
  have hA := dotRow_self_nonneg u
  have hB := dotRow_self_nonneg v
  have hab : dotRow u u * dotRow v v ≤ 1 := mul_le_one₀ hu hB hv
  nlinarith [sq_nonneg (dotRow u v + 1)]

theorem distMatrix_entries_le (normEmb : List (List ℚ))
    (hunit : ∀ v ∈ normEmb, dotRow v v ≤ 1) :
    ∀ row ∈ distMatrix normEmb, ∀ d ∈ row, d ≤ 2 := by
  intro row hrow d hd
  unfold distMatrix at hrow
  obtain ⟨r, hr, rfl⟩ := List.mem_map.mp hrow
  obtain ⟨s, hs, rfl⟩ := List.mem_map.mp hd
  unfold simMatrix at hr
  obtain ⟨u, hu, rfl⟩ := List.mem_map.mp hr
  obtain ⟨v, hv, rfl⟩ := List.mem_map.mp hs
  exact dist_entry_le u v (hunit u hu) (hunit v hv)

theorem mapIdx_if_eq_set {β : Type} (row : List β) (i : ℕ) (M : β) :
    row.mapIdx (fun j d => if j = i then M else d) = row.set i M := by
  apply List.ext_getElem
  · simp
  · intro j h1 h2
    rw [List.getElem_mapIdx]
    rw [List.getElem_set]
    by_cases hj : j = i
    · simp [hj]
    · rw [if_neg hj, if_neg (Ne.symm hj)]

theorem set_perm_cons_eraseIdx {β : Type} (l : List β) (i : ℕ) (M : β)
    (h : i < l.length) : (l.set i M).Perm (M :: l.eraseIdx i) := by
  induction l generalizing i with
  | nil => simp at h
  | cons a l ih =>
    cases i with
    | zero => simp [List.set, List.eraseIdx]
    | succ i =>
      rw [List.set_cons_succ, List.eraseIdx_cons_succ]
      have hi : i < l.length := by simpa using h
      exact ((ih i hi).cons a).trans (List.Perm.swap M a _)

theorem ascRow_sorted (row : List ℚ) :
    List.Sorted (fun a b : ℚ => a ≤ b) (ascRow row) :=
  List.sorted_insertionSort _ row

theorem ascRow_perm (row : List ℚ) : (ascRow row).Perm row :=
  List.perm_insertionSort _ row

theorem ascRow_patched (row : List ℚ) (i : ℕ) (hi : i < row.length)
    (hbound : ∀ d ∈ row, d ≤ 2) :
    ascRow (row.mapIdx (fun j d => if j = i then sentinel ℚ else d)) =
      ascRow (row.eraseIdx i) ++ [sentinel ℚ] := by
  have hperm : (ascRow (row.mapIdx
      (fun j d => if j = i then sentinel ℚ else d))).Perm
      (ascRow (row.eraseIdx i) ++ [sentinel ℚ]) := by
    refine List.Perm.trans (ascRow_perm _) ?_
    rw [mapIdx_if_eq_set row i (sentinel ℚ)]
    refine List.Perm.trans (set_perm_cons_eraseIdx row i (sentinel ℚ) hi) ?_
    refine List.Perm.trans (List.perm_append_singleton _ _).symm ?_
    exact List.Perm.append_right _ (ascRow_perm _).symm
  have hs2 : List.Sorted (fun a b : ℚ => a ≤ b)
      (ascRow (row.eraseIdx i) ++ [sentinel ℚ]) := by
    rw [List.Sorted, List.pairwise_append]
    refine ⟨ascRow_sorted _, List.pairwise_singleton _ _, ?_⟩
    intro x hx y hy
    rw [List.mem_singleton] at hy
    subst hy
    have hx2 : x ∈ row := List.Sublist.mem ((ascRow_perm _).mem_iff.mp hx)
      (List.eraseIdx_sublist row i)
    have h2 : x ≤ 2 := hbound x hx2
    have hsen : (2:ℚ) < sentinel ℚ := by norm_num [sentinel]
    linarith
  exact List.eq_of_perm_of_sorted hperm (ascRow_sorted _) hs2

theorem take_patched (row : List ℚ) (i k : ℕ) (hi : i < row.length)
    (hk : k ≤ row.length - 1) (hbound : ∀ d ∈ row, d ≤ 2) :
    (ascRow (row.mapIdx (fun j d => if j = i then sentinel ℚ else d))).take k =
      (ascRow (row.eraseIdx i)).take k := by
  rw [ascRow_patched row i hi hbound]
  apply List.take_append_of_le_length
  rw [show (ascRow (row.eraseIdx i)).length = (row.eraseIdx i).length from
    (ascRow_perm _).length_eq]
  rw [List.length_eraseIdx_of_lt hi]
  exact hk

theorem distMatrix_length (normEmb : List (List ℚ)) :
    (distMatrix normEmb).length = normEmb.length := by
  simp [distMatrix, simMatrix]

theorem distMatrix_row_length (normEmb : List (List ℚ)) (i : ℕ)
    (h : i < (distMatrix normEmb).length) :
    (distMatrix normEmb)[i].length = normEmb.length := by
  have hall : ∀ row ∈ distMatrix normEmb, row.length = normEmb.length := by
    intro row hrow
    obtain ⟨r, hr, rfl⟩ := List.mem_map.mp hrow
    obtain ⟨u, hu, rfl⟩ := List.mem_map.mp hr
    simp
  exact hall _ (List.getElem_mem h)

/-- C2: for a population larger than `k_neighbors`, with one L2-normalized
embedding row per member (squared norms at most 1, the postcondition of
the normalization step), the novelty scores returned by
`select_by_novelty` are, for each member `i`, exactly the mean of the
`k_neighbors` smallest cosine distances to the *other* rows: the
diagonal, replaced by the large finite sentinel, never enters any
member's k-nearest average. -/
theorem novelty_excludes_self (p : Population) (normEmb : List (List ℚ))
    (k : ℕ) (hk : k < p.artifacts.length)
    (hn : normEmb.length = p.artifacts.length)
    (hunit : ∀ v ∈ normEmb, dotRow v v ≤ 1) :
    (p.select_by_novelty normEmb k).2 =
      (List.range normEmb.length).map (fun i =>
        meanList ((ascRow (((distMatrix normEmb).getD i []).eraseIdx i)).take k)) := by
  unfold Population.select_by_novelty
  rw [if_neg (not_le.mpr hk)]
  show noveltyScores normEmb k = _
  unfold noveltyScores kNearestRows
  rw [List.map_map]
  apply List.ext_getElem
  · simp [patchDiag, distMatrix, simMatrix]
  · intro i h1 h2
    have hiD : i < (distMatrix normEmb).length := by
      have h1' := h1
      rw [List.length_map] at h1'
      simpa [patchDiag] using h1'
    have hrowlen : (distMatrix normEmb)[i].length = normEmb.length :=
      distMatrix_row_length normEmb i hiD
    have hip : i < (patchDiag (distMatrix normEmb)).length := by
      simpa [patchDiag] using hiD
    have hpatch : (patchDiag (distMatrix normEmb))[i] =
        ((distMatrix normEmb)[i]).mapIdx
          (fun j d => if j = i then sentinel ℚ else d) := by
      unfold patchDiag
      rw [List.getElem_mapIdx]
    have hgetD : (distMatrix normEmb).getD i [] = (distMatrix normEmb)[i] := by
      rw [List.getD_eq_getElem?_getD, List.getElem?_eq_getElem hiD]
      rfl
    rw [List.getElem_map, List.getElem_map, List.getElem_range, hgetD]
    show meanList ((ascRow ((patchDiag (distMatrix normEmb))[i])).take k) = _
    rw [hpatch]
    have him : i < normEmb.length := by
      rw [← distMatrix_length normEmb]
      exact hiD
    rw [take_patched ((distMatrix normEmb)[i]) i k
      (by rw [hrowlen]; exact him)
      (by rw [hrowlen, hn]; omega)
      (distMatrix_entries_le normEmb hunit _ (List.getElem_mem hiD))]

theorem novelty_excludes_self_witness :
    (1 < pop3.artifacts.length ∧
     ([[1, 0], [0, 1], [0, 0]] : List (List ℚ)).length = pop3.artifacts.length ∧
     ∀ v ∈ ([[1, 0], [0, 1], [0, 0]] : List (List ℚ)), dotRow v v ≤ 1) ∧
    (pop3.select_by_novelty [[1, 0], [0, 1], [0, 0]] 1).2 =
      (List.range ([[1, 0], [0, 1], [0, 0]] : List (List ℚ)).length).map (fun i =>
        meanList ((ascRow
          (((distMatrix ([[1, 0], [0, 1], [0, 0]] : List (List ℚ))).getD i
            []).eraseIdx i)).take 1)) :=
  ⟨⟨by decide, by decide, by simp [dotRow]⟩,
   novelty_excludes_self pop3 [[1, 0], [0, 1], [0, 0]] 1 (by decide) (by decide)
     (by simp [dotRow])⟩

/-! Helper lemmas for the concrete novelty-ranking example. -/

theorem OI_neg {β : Type} (r : β → β → Prop) [DecidableRel r] (a b : β)
    (l : List β) (h : ¬ r a b) :
    List.orderedInsert r a (b :: l) = b :: List.orderedInsert r a l := by
  simp [List.orderedInsert, h]

theorem meanList_singleton (a : ℝ) : meanList [a] = a := by
  simp [meanList]

theorem argsortDesc_scores_sorted (scores : List ℚ) :
    List.Sorted (fun a b : ℚ => b ≤ a)
      ((argsortDesc scores).map (fun i => scores.getD i 0)) := by
  haveI hIT : IsTrans (ℕ × ℚ) (fun p q => q.2 ≤ p.2) :=
    ⟨fun _ _ _ h1 h2 => le_trans h2 h1⟩
  haveI hITot : IsTotal (ℕ × ℚ) (fun p q => q.2 ≤ p.2) :=
    ⟨fun a b => le_total b.2 a.2⟩
  unfold argsortDesc
  rw [List.map_map]
  have hmem : ∀ p ∈ ((List.range scores.length).zip scores).insertionSort
      (fun p q => q.2 ≤ p.2),
      ((fun i => scores.getD i 0) ∘ Prod.fst) p = Prod.snd p := by
    intro p hp
    have hp2 : p ∈ (List.range scores.length).zip scores :=
      (List.perm_insertionSort _ _).subset hp
    obtain ⟨j, hj, hpj⟩ := List.mem_iff_getElem.mp hp2
    have hjlen : j < scores.length := by
      have := hj
      rw [List.length_zip, List.length_range] at this
      omega
    rw [List.getElem_zip, List.getElem_range] at hpj
    subst hpj
    show scores.getD j 0 = scores[j]
    rw [List.getD_eq_getElem?_getD, List.getElem?_eq_getElem hjlen]
    rfl
  rw [List.map_congr_left hmem]
  exact List.Pairwise.map Prod.snd (fun _ _ h => h)
    (List.sorted_insertionSort _ _)

/-- C4: on the population of three artifacts with embeddings `[1,0]`,
`[0.99,0.01]`, `[0,1]` and `k_neighbors = 1`, `select_by_novelty` (over
`ℝ`, including the L2 normalization) ranks the artifact with embedding
`[0,1]` first: the returned index list is `[2, 0, 1]`.  In general the
returned index list is sorted by novelty score descending. -/
theorem novelty_ranks_far_vector_first :
    (pop3.selectByNoveltyFull [[1, 0], [99/100, 1/100], [0, 1]] 1).1 = [2, 0, 1] ∧
    ∀ (scores : List ℚ),
      List.Sorted (fun a b : ℚ => b ≤ a)
        ((argsortDesc scores).map (fun i => scores.getD i 0)) := by
  refine ⟨?_, argsortDesc_scores_sorted⟩
  unfold Population.selectByNoveltyFull
  rw [if_neg (by decide : ¬ pop3.artifacts.length ≤ 1)]
  show argsortDesc (noveltyScores
    (([[1, 0], [99/100, 1/100], [0, 1]] : List (List ℝ)).map normalizeRow) 1) =
    [2, 0, 1]
  have hsq : Real.sqrt (4901/5000) * Real.sqrt (4901/5000) = 4901/5000 :=
    Real.mul_self_sqrt (by norm_num)
  set s := Real.sqrt (4901/5000) with hs_def
  have hs_nonneg : (0:ℝ) ≤ s := Real.sqrt_nonneg _
  have hs_pos : (0:ℝ) < s := by nlinarith
  have hs_le1 : s ≤ 1 := by nlinarith
  have hs_ge : (99:ℝ)/100 ≤ s := by nlinarith
  have heps : (1:ℝ)/10^12 ≤ s := by nlinarith
  have hn0 : normalizeRow [1, 0] = [1, 0] := by
    have hd : dotRow ([1, 0] : List ℝ) [1, 0] = 1 := by norm_num [dotRow]
    rw [normalizeRow, hd, Real.sqrt_one]
    norm_num
  have hn2 : normalizeRow [0, 1] = [0, 1] := by
    have hd : dotRow ([0, 1] : List ℝ) [0, 1] = 1 := by norm_num [dotRow]
    rw [normalizeRow, hd, Real.sqrt_one]
    norm_num
  have hn1 : normalizeRow [99/100, 1/100] = [99/100/s, 1/100/s] := by
    have hd : dotRow ([99/100, 1/100] : List ℝ) [99/100, 1/100] = 4901/5000 := by
      norm_num [dotRow]
    rw [normalizeRow, hd, ← hs_def, max_eq_left heps]
    rfl
  have hnorm : ([[1, 0], [99/100, 1/100], [0, 1]] : List (List ℝ)).map normalizeRow
      = [[1, 0], [99/100/s, 1/100/s], [0, 1]] := by
    rw [List.map_cons, List.map_cons, List.map_cons, List.map_nil, hn0, hn1, hn2]
  rw [hnorm]
  have e00 : dotRow ([1, 0] : List ℝ) [1, 0] = 1 := by norm_num [dotRow]
  have e01 : dotRow ([1, 0] : List ℝ) [99/100/s, 1/100/s] = 99/100/s := by
    norm_num [dotRow]
  have e02 : dotRow ([1, 0] : List ℝ) [0, 1] = 0 := by norm_num [dotRow]
  have e10 : dotRow ([99/100/s, 1/100/s] : List ℝ) [1, 0] = 99/100/s := by
    norm_num [dotRow]
  have e11 : dotRow ([99/100/s, 1/100/s] : List ℝ) [99/100/s, 1/100/s] = 1 := by
    show 99/100/s * (99/100/s) + (1/100/s * (1/100/s) + 0) = 1
    field_simp
    nlinarith [hsq]
  have e12 : dotRow ([99/100/s, 1/100/s] : List ℝ) [0, 1] = 1/100/s := by
    norm_num [dotRow]
  have e20 : dotRow ([0, 1] : List ℝ) [1, 0] = 0 := by norm_num [dotRow]
  have e21 : dotRow ([0, 1] : List ℝ) [99/100/s, 1/100/s] = 1/100/s := by
    norm_num [dotRow]
  have e22 : dotRow ([0, 1] : List ℝ) [0, 1] = 1 := by norm_num [dotRow]
  have hsim : simMatrix [[1, 0], [99/100/s, 1/100/s], [0, 1]] =
      [[1, 99/100/s, 0], [99/100/s, 1, 1/100/s], [0, 1/100/s, 1]] := by
    simp only [simMatrix, List.map_cons, List.map_nil, e00, e01, e02, e10, e11,
      e12, e20, e21, e22]
  have hdist : distMatrix [[1, 0], [99/100/s, 1/100/s], [0, 1]] =
      [[0, 1 - 99/100/s, 1], [1 - 99/100/s, 0, 1 - 1/100/s],
       [1, 1 - 1/100/s, 0]] := by
    rw [distMatrix, hsim]
    norm_num
  have hpatch : patchDiag [[0, 1 - 99/100/s, 1],
      [1 - 99/100/s, 0, 1 - 1/100/s], [1, 1 - 1/100/s, 0]] =
      [[sentinel ℝ, 1 - 99/100/s, 1],
       [1 - 99/100/s, sentinel ℝ, 1 - 1/100/s],
       [1, 1 - 1/100/s, sentinel ℝ]] := by
    simp [patchDiag]
  have hA_pos : (0:ℝ) < 99/100/s := by positivity
  have hB_pos : (0:ℝ) < 1/100/s := by positivity
  have hBA : (1:ℝ)/100/s < 99/100/s := by
    rw [div_lt_div_iff₀ hs_pos hs_pos]
    nlinarith
  have hA_le1 : (99:ℝ)/100/s ≤ 1 := by
    rw [div_le_one hs_pos]
    exact hs_ge
  have hM2 : (2:ℝ) ≤ sentinel ℝ := by norm_num [sentinel]
  have hrow0 : ascRow [sentinel ℝ, 1 - 99/100/s, 1] =
      [1 - 99/100/s, 1, sentinel ℝ] := by
    show List.orderedInsert _ (sentinel ℝ)
      (List.orderedInsert _ (1 - 99/100/s) [1]) = _
    rw [List.orderedInsert_of_le _ _ (by linarith : (1:ℝ) - 99/100/s ≤ 1)]
    rw [OI_neg _ _ _ _ (by push_neg; linarith)]
    rw [OI_neg _ _ _ _ (by push_neg; linarith)]
    rfl
  have hrow1 : ascRow [1 - 99/100/s, sentinel ℝ, 1 - 1/100/s] =
      [1 - 99/100/s, 1 - 1/100/s, sentinel ℝ] := by
    show List.orderedInsert _ (1 - 99/100/s)
      (List.orderedInsert _ (sentinel ℝ) [1 - 1/100/s]) = _
    rw [OI_neg _ _ _ _ (by push_neg; linarith)]
    rw [List.orderedInsert_of_le _ _ (by linarith :
      (1:ℝ) - 99/100/s ≤ 1 - 1/100/s)]
    rfl
  have hrow2 : ascRow [1, 1 - 1/100/s, sentinel ℝ] =
      [1 - 1/100/s, 1, sentinel ℝ] := by
    show List.orderedInsert _ (1 : ℝ)
      (List.orderedInsert _ (1 - 1/100/s) [sentinel ℝ]) = _
    rw [List.orderedInsert_of_le _ _ (by linarith :
      (1:ℝ) - 1/100/s ≤ sentinel ℝ)]
    rw [OI_neg _ _ _ _ (by push_neg; linarith)]
    rw [List.orderedInsert_of_le _ _ (by linarith : (1:ℝ) ≤ sentinel ℝ)]
  have hscores : noveltyScores [[1, 0], [99/100/s, 1/100/s], [0, 1]] 1 =
      [1 - 99/100/s, 1 - 99/100/s, 1 - 1/100/s] := by
    rw [noveltyScores, kNearestRows, hdist, hpatch]
    simp only [List.map_cons, List.map_nil]
    rw [hrow0, hrow1, hrow2]
    simp only [List.take_succ_cons, List.take_zero]
    simp [meanList]
  rw [hscores]
  rw [argsortDesc]
  rw [show (List.range ([1 - 99/100/s, 1 - 99/100/s, 1 - 1/100/s] :
    List ℝ).length).zip [1 - 99/100/s, 1 - 99/100/s, 1 - 1/100/s] =
    [(0, 1 - 99/100/s), (1, 1 - 99/100/s), (2, 1 - 1/100/s)] from rfl]
  show ((List.orderedInsert _ (0, 1 - 99/100/s)
    (List.orderedInsert _ (1, 1 - 99/100/s)
      [(2, 1 - 1/100/s)])).map Prod.fst) = _
  rw [OI_neg _ _ _ _ (by push_neg; show (1:ℝ) - 99/100/s < 1 - 1/100/s; linarith)]
  rw [OI_neg _ _ _ _ (by push_neg; show (1:ℝ) - 99/100/s < 1 - 1/100/s; linarith)]
  rw [List.orderedInsert_nil]
  rw [List.orderedInsert_of_le (fun p q : ℕ × ℝ => q.2 ≤ p.2) _
    (le_refl ((1:ℝ) - 99/100/s))]
  rfl

end Lluminate
